import Mathlib

/-!
A shallow embedding of the modlist-generator core: `src/models.py`,
`src/extractors/base.py`, `src/extractors/fabric.py`,
`src/extractors/quilt.py`, `src/extractors/forge.py`,
`src/extractors/__init__.py` and `src/scanner.py`.

Conventions of the embedding:
* Parsed JSON/TOML data (Python objects) are modelled by `JValue`;
  `JValue.null` doubles as Python `None`.  Numbers are modelled as
  integers, since no claim involves floats; digits are modelled as ASCII
  digits (Python regex `\d` also accepts other Unicode decimal digits).
* A raised Python exception is modelled by `Option`/`none` wherever the
  source catches exceptions (every extractor catches its own, and the
  scanner converts the remaining ones into soft errors).
* CPython behaviours the code relies on (truthiness, `dict.get`, the
  `in` operator, `str.strip`, ...) are modelled by the `py*`/`str*`
  helpers directly next to their uses.
* Lean's built-in `String.splitOn`/`toLower`/... are avoided in favour of
  executable character-list implementations, so that every definition
  evaluates inside the kernel.
-/

/-- A parsed JSON/TOML value (a Python object).  `null` is Python `None`.
Object fields model a parsed `dict`: keys are unique and insertion order
is preserved, as in CPython. -/
inductive JValue where
  | null
  | bool (b : Bool)
  | int (n : Int)
  | str (s : String)
  | list (items : List JValue)
  | obj (fields : List (String × JValue))

/-- Python truthiness (`bool(v)`) for the modelled values. -/
def pyTruthy : JValue → Bool
  | .null => false
  | .bool b => b
  | .int n => n != 0
  | .str s => s != ""
  | .list l => !l.isEmpty
  | .obj o => !o.isEmpty

/-- Association-list lookup on a parsed dict (keys are unique). -/
def jLookup (o : List (String × JValue)) (k : String) : Option JValue :=
  match o with
  | [] => none
  | (k2, v) :: rest => if k2 = k then some v else jLookup rest k

/-- `receiver.get(key, default)`: raises (`none`) when the receiver is
not a dict, as CPython does (`AttributeError`). -/
def pyGetD (receiver : JValue) (key : String) (dflt : JValue) : Option JValue :=
  match receiver with
  | .obj o => some ((jLookup o key).getD dflt)
  | _ => none

/-- Python `a or b` on modelled values: `a` when truthy, else `b`. -/
def pyOr (a b : JValue) : JValue := if pyTruthy a then a else b

/-- Python `v == s` against a string literal: equal strings, and `False`
for every non-string value (no cross-type coercion involves `str`). -/
def pyEqStr (v : JValue) (s : String) : Bool :=
  match v with
  | .str t => t = s
  | _ => false

/-- ASCII lowercasing of one character (`str.lower`; the identifiers the
source lowercases are ASCII). -/
def asciiLower (c : Char) : Char :=
  if 'A' ≤ c && c ≤ 'Z' then Char.ofNat (c.toNat + 32) else c

/-- `str.lower()`. -/
def strToLower (s : String) : String := String.mk (s.data.map asciiLower)

/-- Whether `needle` occurs at the start of some suffix of `hay`. -/
def strContainsAux (needle : List Char) : List Char → Bool
  | [] => needle.isPrefixOf []
  | l@(_ :: t) => needle.isPrefixOf l || strContainsAux needle t

/-- Python `needle in hay` on strings: contiguous-substring test. -/
def strContains (hay needle : String) : Bool := strContainsAux needle.data hay.data

/-- `s.startswith(pre)`. -/
def strStartsWith (s pre : String) : Bool := pre.data.isPrefixOf s.data

/-- `s.endswith(suf)`. -/
def strEndsWith (s suf : String) : Bool := suf.data.isSuffixOf s.data

/-- Python `str.strip()` on a character list: drop leading and trailing
whitespace. -/
def pyStripL (l : List Char) : List Char :=
  ((l.dropWhile Char.isWhitespace).reverse.dropWhile Char.isWhitespace).reverse

/-- Python `str.strip()`. -/
def pyStrip (s : String) : String := String.mk (pyStripL s.data)

/-- `str.strip()` that maps the empty result to `None`: the
`value.strip() or None` idiom of the extractors. -/
def stripNonempty (s : String) : Option String :=
  let t := pyStrip s
  if t = "" then none else some t

/-- Python `sep.join(parts)`. -/
def joinWith (sep : String) : List String → String
  | [] => ""
  | [x] => x
  | x :: rest => x ++ sep ++ joinWith sep rest

/-- `s.split(sep)` (single-character separator, full split, keeps empty
pieces, never returns an empty list) -- accumulator holds the current
piece reversed. -/
def splitCharAux (sep : Char) : List Char → List Char → List String
  | [], acc => [String.mk acc.reverse]
  | c :: cs, acc =>
    if c = sep then String.mk acc.reverse :: splitCharAux sep cs []
    else splitCharAux sep cs (c :: acc)

/-- `s.split(sep)` for a one-character separator. -/
def strSplitChar (sep : Char) (s : String) : List String :=
  splitCharAux sep s.data []

/-- `s.split(sep, 1)` for a one-character separator known to occur in
`s`: the part before the first occurrence and everything after it. -/
def splitOnceChar (sep : Char) : List Char → Option (List Char × List Char)
  | [] => none
  | c :: cs =>
    if c = sep then some ([], cs)
    else match splitOnceChar sep cs with
      | some (a, b) => some (c :: a, b)
      | none => none

/-- Models CPython `list(set(xs))` and set accumulation: duplicates
removed.  A CPython set iterates in an unspecified, hash-dependent order;
the model fixes first-occurrence order (the source promises no order for
this conversion either).  `seen` accumulates the elements already kept. -/
def pySetListAux (seen : List String) : List String → List String
  | [] => []
  | x :: xs =>
    if x ∈ seen then pySetListAux seen xs
    else x :: pySetListAux (x :: seen) xs

/-- CPython `list(set(xs))`, modelled with first-occurrence order. -/
def pySetList (xs : List String) : List String := pySetListAux [] xs

/-- Lexicographic comparison of character lists by code point, the order
CPython `sorted` uses on `str`. -/
def lexLeChars : List Char → List Char → Bool
  | [], _ => true
  | _ :: _, [] => false
  | a :: as, b :: bs =>
    if a.toNat < b.toNat then true
    else if b.toNat < a.toNat then false
    else lexLeChars as bs

/-- Python `a <= b` on strings (lexicographic by code point). -/
def strLe (a b : String) : Bool := lexLeChars a.data b.data

/-- CPython `sorted` on a list of strings (the input below is always
duplicate-free, so any correct sort yields the same list). -/
def sortStrings (xs : List String) : List String :=
  List.insertionSort (fun a b => strLe a b = true) xs

/-!
`MC_VERSION_PATTERNS` of `extractors/base.py`: five regexes whose group 1
captures are harvested by `_parse_mc_versions`.  Each is embedded as a
direct scanner over the character list.  The regex engine's backtracking
never changes the capture set for these patterns: each character class
that neighbours `\d+` is disjoint from the digits, so giving back
characters from a greedy run can never rescue a failed match; the only
optional group, `(?:\.\d+)?`, is resolved by a one-character lookahead.
`finditer` semantics (try a match at each position; on success continue
after the match, on failure advance one character) is mirrored exactly;
the patterns cannot produce zero-width matches.
-/

/-- Greedy match of `\d+\.\d+(?:\.\d+)?` at the head of the input:
the captured characters and the unconsumed rest. -/
def parseVer (l : List Char) : Option (List Char × List Char) :=
  let d1 := l.takeWhile Char.isDigit
  let r1 := l.dropWhile Char.isDigit
  if d1.isEmpty then none else
  match r1 with
  | '.' :: r2 =>
    let d2 := r2.takeWhile Char.isDigit
    let r3 := r2.dropWhile Char.isDigit
    if d2.isEmpty then none else
    match r3 with
    | '.' :: r4 =>
      let d3 := r4.takeWhile Char.isDigit
      let r5 := r4.dropWhile Char.isDigit
      if d3.isEmpty then some (d1 ++ '.' :: d2, r3)
      else some (d1 ++ '.' :: d2 ++ '.' :: d3, r5)
    | _ => some (d1 ++ '.' :: d2, r3)
  | _ => none

/-- Greedy match of `\d+\.\d+` at the head of the input. -/
def parseVer2 (l : List Char) : Option (List Char × List Char) :=
  let d1 := l.takeWhile Char.isDigit
  let r1 := l.dropWhile Char.isDigit
  if d1.isEmpty then none else
  match r1 with
  | '.' :: r2 =>
    let d2 := r2.takeWhile Char.isDigit
    let r3 := r2.dropWhile Char.isDigit
    if d2.isEmpty then none else some (d1 ++ '.' :: d2, r3)
  | _ => none

/-- Pattern 1, `^(\d+\.\d+(?:\.\d+)?)$`: the whole input is one version. -/
def scanP1 (l : List Char) : List (List Char) :=
  match parseVer l with
  | some (v, []) => [v]
  | _ => []

/-- The character class `[><=~^]`. -/
def isCmpChar (c : Char) : Bool :=
  c = '>' || c = '<' || c = '=' || c = '~' || c = '^'

/-- Pattern 2, `finditer` of `[><=~^]*\s*(\d+\.\d+(?:\.\d+)?)`.  The fuel
is the input length; every recursive call drops at least one character,
so the fuel is never exhausted (`scanP2_fuel` below). -/
def scanP2 : Nat → List Char → List (List Char)
  | 0, _ => []
  | _, [] => []
  | fuel + 1, c :: cs =>
    let l2 := (List.dropWhile isCmpChar (c :: cs)).dropWhile Char.isWhitespace
    match parseVer l2 with
    | some (v, rest) => v :: scanP2 fuel rest
    | none => scanP2 fuel cs

/-- Pattern 3, `finditer` of `[\[\(](\d+\.\d+(?:\.\d+)?)\s*,`. -/
def scanP3 : Nat → List Char → List (List Char)
  | 0, _ => []
  | _, [] => []
  | fuel + 1, c :: cs =>
    if c = '[' || c = '(' then
      match parseVer cs with
      | some (v, rest) =>
        match rest.dropWhile Char.isWhitespace with
        | ',' :: r3 => v :: scanP3 fuel r3
        | _ => scanP3 fuel cs
      | none => scanP3 fuel cs
    else scanP3 fuel cs

/-- Pattern 4, `finditer` of `,\s*(\d+\.\d+(?:\.\d+)?)[\]\)]`. -/
def scanP4 : Nat → List Char → List (List Char)
  | 0, _ => []
  | _, [] => []
  | fuel + 1, c :: cs =>
    if c = ',' then
      match parseVer (cs.dropWhile Char.isWhitespace) with
      | some (v, b :: r3) =>
        if b = ']' || b = ')' then v :: scanP4 fuel r3 else scanP4 fuel cs
      | _ => scanP4 fuel cs
    else scanP4 fuel cs

/-- Pattern 5, `finditer` of `(\d+\.\d+)(?:\.[x*])?`: the capture is the
`major.minor` part; a wildcard tail is consumed but not captured. -/
def scanP5 : Nat → List Char → List (List Char)
  | 0, _ => []
  | _, [] => []
  | fuel + 1, c :: cs =>
    match parseVer2 (c :: cs) with
    | some (v, rest) =>
      let rest2 := match rest with
        | '.' :: 'x' :: r => r
        | '.' :: '*' :: r => r
        | _ => rest
      v :: scanP5 fuel rest2
    | none => scanP5 fuel cs

/-- All group-1 captures of the five `MC_VERSION_PATTERNS` over one
constraint, in pattern order, filtered by the source's
`len(version.split('.')) >= 2` check (every capture already has at least
two components, but the check is kept as written). -/
def harvest (l : List Char) : List (List Char) :=
  (scanP1 l ++ scanP2 l.length l ++ scanP3 l.length l ++
   scanP4 l.length l ++ scanP5 l.length l).filter
    (fun v => 2 ≤ (strSplitChar '.' (String.mk v)).length)

mutual
/-- `BaseExtractor._parse_mc_versions`.  Python's checks collapse
per-constructor: a falsy value (`None`, `False`, `0`, `""`, `[]`, `{}`)
returns `[]`; a list is parsed element-wise and the union is passed
through `list(set(...))` (dedup, unspecified order); a string is stripped
and harvested into a set, returned as `sorted(...)`; every other value
returns `[]`. -/
def parse_mc_versions : JValue → List String
  | .null => []
  | .bool _ => []
  | .int _ => []
  | .obj _ => []
  | .list items =>
    if items.isEmpty then []
    else pySetList (parseVersionsList items)
  | .str s =>
    if s = "" then []
    else sortStrings (pySetList ((harvest (pyStripL s.data)).map String.mk))

def parseVersionsList : List JValue → List String
  | [] => []
  | v :: vs => parse_mc_versions v ++ parseVersionsList vs
end

/-!  The data model (`models.py`) and the archive model. -/

/-- `models.ModInfo` (a frozen dataclass).  Fields Python leaves
dynamically typed (they receive raw JSON values) are `JValue`; `author`
and `description` are `Option String` because the code always coerces
them to a string or `None`; `loader` is a `String` because only string
literals are ever assigned to it. -/
structure ModInfo where
  name : JValue
  loader : String
  version : JValue
  filename : String
  mod_id : JValue := .null
  dependencies : List JValue := []
  author : Option String := none
  description : Option String := none
  mc_versions : List String := []
  disabled : Bool := false

/-- A readable archive: the entry-name list (`ZipFile.namelist()`) plus,
per entry path, what the relevant reader yields -- `jsonOf` is the result
of open/decode/`json.loads` (`none`: entry absent, unreadable, or invalid
JSON), `tomlOf` likewise for `tomllib.loads` (which always returns a
dict), and `rawOf` the decoded text (for `META-INF/MANIFEST.MF`). -/
structure Jar where
  entries : List String
  jsonOf : String → Option JValue
  tomlOf : String → Option (List (String × JValue))
  rawOf : String → Option String

/-- The name and stem of an archive path (`pathlib` attributes of
`jar_path`; the stem is the name minus its final suffix). -/
structure PathInfo where
  name : String
  stem : String

/-- One registered extractor: display name, priority, detection
predicate and extraction function (`BaseExtractor`'s interface). -/
structure Extractor where
  name : String
  priority : Nat
  can_extract : Jar → Bool
  extract : Jar → PathInfo → Option ModInfo

/-!  Shared helpers of `BaseExtractor`. -/

/-- The object branch of `_extract_dependencies`' list case: keep string
entries, and for dict entries the first truthy of
`modId`/`id`/`mod_id`. -/
def depListItems : List JValue → List JValue
  | [] => []
  | .str s :: rest => .str s :: depListItems rest
  | .obj o :: rest =>
    let did := pyOr ((jLookup o "modId").getD .null)
      (pyOr ((jLookup o "id").getD .null) ((jLookup o "mod_id").getD .null))
    if pyTruthy did then did :: depListItems rest else depListItems rest
  | _ :: rest => depListItems rest

/-- One field's contribution in `_extract_dependencies`: a dict
contributes its keys, a list its items (as above). -/
def depsFromValue : JValue → List JValue
  | .obj o => o.map (fun kv => JValue.str kv.fst)
  | .list l => depListItems l
  | _ => []

/-- `BaseExtractor._extract_dependencies` over the listed fields. -/
def extract_dependencies (data : List (String × JValue)) : List String → List JValue
  | [] => []
  | f :: rest =>
    (match jLookup data f with
     | some v => depsFromValue v
     | none => []) ++ extract_dependencies data rest

/-- The per-author step of `_normalize_authors`' list case: strings are
kept stripped when nonempty; dicts contribute the first truthy of
`name`/`username`/`id` when it is a nonempty string. -/
def authorNames : List JValue → List String
  | [] => []
  | .str s :: rest =>
    (match stripNonempty s with
     | some t => [t]
     | none => []) ++ authorNames rest
  | .obj o :: rest =>
    let n := pyOr ((jLookup o "name").getD .null)
      (pyOr ((jLookup o "username").getD .null) ((jLookup o "id").getD .null))
    (match n with
     | .str s =>
       match stripNonempty s with
       | some t => [t]
       | none => []
     | _ => []) ++ authorNames rest
  | _ :: rest => authorNames rest

/-- `BaseExtractor._normalize_authors`: a falsy value gives `None`, a
string is stripped (`None` when empty), a list is flattened and
comma-joined (`None` when no names survive), anything else is `None`. -/
def normalize_authors (authors : JValue) : Option String :=
  if !pyTruthy authors then none
  else match authors with
    | .str s => stripNonempty s
    | .list l =>
      let names := authorNames l
      if names.isEmpty then none else some (joinWith ", " names)
    | _ => none

/-- The description coercion repeated in every extractor:
`description.strip() or None` for strings, `None` otherwise. -/
def descriptionOf : JValue → Option String
  | .str s => stripNonempty s
  | _ => none

/-!  `FabricExtractor` (`extractors/fabric.py`). -/

/-- `FabricExtractor.extract`: `none` when `fabric.mod.json` is absent,
unreadable or invalid JSON, or when the parsed value is not a dict
(`data.get` raises on it, and `extract` catches every exception). -/
def fabricExtract (jar : Jar) (p : PathInfo) : Option ModInfo :=
  match jar.jsonOf "fabric.mod.json" with
  | none => none
  | some data =>
    match data with
    | .obj o =>
      let mod_id := (jLookup o "id").getD (.str "")
      let name := (jLookup o "name").getD ((jLookup o "id").getD (.str p.stem))
      let version := (jLookup o "version").getD (.str "Unknown")
      let dependencies := extract_dependencies o ["depends", "recommends"]
      let author := normalize_authors ((jLookup o "authors").getD .null)
      let description := descriptionOf ((jLookup o "description").getD .null)
      let mc_versions :=
        match (jLookup o "depends").getD (.obj []) with
        | .obj depO =>
          match jLookup depO "minecraft" with
          | some mv => parse_mc_versions mv
          | none => []
        | _ => []
      some { name := name, loader := "fabric", version := version,
             filename := p.name, mod_id := mod_id,
             dependencies := dependencies, author := author,
             description := description, mc_versions := mc_versions }
    | _ => none

/-!  `QuiltExtractor` (`extractors/quilt.py`). -/

/-- One step of the `quilt_loader.depends` loop: dict entries with a
truthy `id` either divert to the Minecraft versions (id `"minecraft"`,
versions from `versions or version`) or join the dependency list; plain
strings join the dependency list; everything else is skipped.  The
accumulator is (dependencies so far, current `mc_versions`). -/
def quiltDepStep (acc : List JValue × List String) (dep : JValue) :
    List JValue × List String :=
  match dep with
  | .obj o =>
    let dep_id := (jLookup o "id").getD .null
    if pyTruthy dep_id then
      if pyEqStr dep_id "minecraft" then
        let versions := pyOr ((jLookup o "versions").getD .null)
          ((jLookup o "version").getD .null)
        (acc.1, parse_mc_versions versions)
      else (acc.1 ++ [dep_id], acc.2)
    else acc
  | .str s => (acc.1 ++ [.str s], acc.2)
  | _ => acc

/-- `QuiltExtractor.extract`.  The nested `quilt_loader`/`metadata`
sections must be dicts (a `.get` on anything else raises, caught into
`none`); a missing section defaults to `{}`. -/
def quiltExtract (jar : Jar) (p : PathInfo) : Option ModInfo :=
  match jar.jsonOf "quilt.mod.json" with
  | none => none
  | some data =>
    match data with
    | .obj dataO =>
      match (jLookup dataO "quilt_loader").getD (.obj []) with
      | .obj qlO =>
        match (jLookup qlO "metadata").getD (.obj []) with
        | .obj mdO =>
          let mod_id := (jLookup qlO "id").getD (.str "")
          let name := (jLookup mdO "name").getD
            (if pyTruthy mod_id then mod_id else .str p.stem)
          let version := (jLookup qlO "version").getD (.str "Unknown")
          let depmc :=
            match (jLookup qlO "depends").getD (.list []) with
            | .list items => items.foldl quiltDepStep ([], [])
            | _ => ([], [])
          let contributors := (jLookup mdO "contributors").getD .null
          let author1 : Option String :=
            if pyTruthy contributors then
              match contributors with
              | .obj co => some (joinWith ", " (co.map (fun kv => kv.fst)))
              | _ => normalize_authors contributors
            else none
          let author :=
            if author1.getD "" = "" then
              normalize_authors ((jLookup mdO "authors").getD .null)
            else author1
          let description := descriptionOf ((jLookup mdO "description").getD .null)
          some { name := name, loader := "quilt", version := version,
                 filename := p.name, mod_id := mod_id,
                 dependencies := depmc.1, author := author,
                 description := description, mc_versions := depmc.2 }
        | _ => none
      | _ => none
    | _ => none

/-!  `ForgeTomlExtractor` (`extractors/forge.py`).  The model fixes the
TOML parser as importable (`tomllib is not None`). -/

/-- Whether the TOML parser could be imported; the environment modelled
here has it (Python 3.11+ or `tomli` installed). -/
def tomllibAvailable : Bool := true

/-- `ForgeTomlExtractor.TOML_FILES`, in precedence order. -/
def TOML_FILES : List String := ["META-INF/neoforge.mods.toml", "META-INF/mods.toml"]

/-- `ForgeTomlExtractor._find_toml_file`: the first of `TOML_FILES`
present in the entry list. -/
def find_toml_file (files : List String) : Option String :=
  TOML_FILES.find? (fun tf => files.contains tf)

/-- Scan one dependency list for an entry dict whose `modId` lowercases
to `"neoforge"`; `none` models the raise of `.lower()` on a non-string
`modId` value. -/
def scanDepListForNeo : List JValue → Option Bool
  | [] => some false
  | .obj o :: rest =>
    (match (jLookup o "modId").getD (.str "") with
     | .str s =>
       if strToLower s = "neoforge" then some true else scanDepListForNeo rest
     | _ => none)
  | _ :: rest => scanDepListForNeo rest

/-- Rule 3 of `_detect_loader`: scan every value of the `dependencies`
dict (list values only) for a `neoforge` dependency. -/
def scanDepsValuesForNeo : List (String × JValue) → Option Bool
  | [] => some false
  | (_, .list l) :: rest =>
    (match scanDepListForNeo l with
     | none => none
     | some true => some true
     | some false => scanDepsValuesForNeo rest)
  | _ :: rest => scanDepsValuesForNeo rest

/-- The `mods`-array rule of `_detect_loader`: when `mods` is truthy,
look up `mods[0].get('modId','').lower()` in `dependencies` and scan
that entry (when it is a list) for a `neoforge` dependency.  `none`
models the raises: indexing a non-indexable `mods`, `.get` on a
non-dict first entry, `.lower()` on a non-string `modId`, `in` on an
unsupported container, and subscripting a list/str with a string key. -/
def forgeModsRule (data : List (String × JValue)) (dependencies : JValue) :
    Option Bool :=
  let mods := (jLookup data "mods").getD (.list [])
  if !pyTruthy mods then some false
  else
    match mods with
    | .list (mod0 :: _) =>
      (match mod0 with
       | .obj mo =>
         (match (jLookup mo "modId").getD (.str "") with
          | .str mid0 =>
            let mid := strToLower mid0
            (match dependencies with
             | .obj dv =>
               (match jLookup dv mid with
                | some (.list l) => scanDepListForNeo l
                | some _ => some false
                | none => some false)
             | .list dl =>
               if dl.any (fun d => pyEqStr d mid) then none else some false
             | .str ds =>
               if strContains ds mid then none else some false
             | _ => none)
          | _ => none)
       | _ => none)
    | .str s =>
      (match s.data with
       | _ :: _ => none
       | [] => some false)
    | _ => none

/-- `ForgeTomlExtractor._detect_loader`: the five-rule precedence chain,
defaulting to `forge`.  `none` models a raise escaping to `extract`'s
handler (`.lower()` on non-string `modLoader`/`loaderVersion` fields, or
a raise inside the dependency rules). -/
def detect_loader (toml_file : String) (data : List (String × JValue))
    (p : PathInfo) : Option String :=
  if strContains toml_file "neoforge.mods.toml" then some "neoforge" else
  match (jLookup data "modLoader").getD (.str "") with
  | .str ml0 =>
    if strContains (strToLower ml0) "neoforge" then some "neoforge" else
    let dependencies := (jLookup data "dependencies").getD (.obj [])
    let r3 :=
      match dependencies with
      | .obj dv => scanDepsValuesForNeo dv
      | _ => some false
    (match r3 with
     | none => none
     | some true => some "neoforge"
     | some false =>
       match forgeModsRule data dependencies with
       | none => none
       | some true => some "neoforge"
       | some false =>
         if strContains (strToLower p.name) "neoforge" then some "neoforge" else
         match (jLookup data "loaderVersion").getD (.str "") with
         | .str lv =>
           if strContains (strToLower lv) "neoforge" then some "neoforge"
           else some "forge"
         | _ => none)
  | _ => none

/-- The filter of `_extract_dependencies_from_toml`: entry dicts whose
`modId` is truthy and none of the implicit `minecraft`/`forge`/`neoforge`
ids (`not in` compares with `==`, false for every non-string id). -/
def forgeDepIds : List JValue → List JValue
  | [] => []
  | .obj o :: rest =>
    let did := (jLookup o "modId").getD (.str "")
    if pyTruthy did &&
        !(pyEqStr did "minecraft" || pyEqStr did "forge" || pyEqStr did "neoforge")
    then did :: forgeDepIds rest else forgeDepIds rest
  | _ :: rest => forgeDepIds rest

/-- `ForgeTomlExtractor._extract_dependencies_from_toml`: the entry of
the `dependencies` dict keyed by the mod's own id (default `[]`),
filtered when it is a list.  `none` models `dict.get` raising on an
unhashable key. -/
def extract_dependencies_from_toml (data : List (String × JValue))
    (mod_id : JValue) : Option (List JValue) :=
  match (jLookup data "dependencies").getD (.obj []) with
  | .obj dv =>
    (match mod_id with
     | .str s => some
        (match (jLookup dv s).getD (.list []) with
         | .list l => forgeDepIds l
         | _ => [])
     | .list _ => none
     | .obj _ => none
     | _ => some [])
  | _ => some []

/-- The scan of `_extract_mc_versions_from_toml`: first entry dict whose
`modId` lowercases to `minecraft` yields `parse(versionRange)`; `none`
models `.lower()` raising on a non-string `modId`. -/
def forgeMcScan : List JValue → Option (List String)
  | [] => some []
  | .obj o :: rest =>
    (match (jLookup o "modId").getD (.str "") with
     | .str s =>
       if strToLower s = "minecraft" then
         some (parse_mc_versions ((jLookup o "versionRange").getD (.str "")))
       else forgeMcScan rest
     | _ => none)
  | _ :: rest => forgeMcScan rest

/-- `ForgeTomlExtractor._extract_mc_versions_from_toml`. -/
def extract_mc_versions_from_toml (data : List (String × JValue))
    (mod_id : JValue) : Option (List String) :=
  match (jLookup data "dependencies").getD (.obj []) with
  | .obj dv =>
    (match mod_id with
     | .str s =>
       (match (jLookup dv s).getD (.list []) with
        | .list l => forgeMcScan l
        | _ => some [])
     | .list _ => none
     | .obj _ => none
     | _ => some [])
  | _ => some []

/-- `ForgeTomlExtractor._get_version_from_manifest`'s line scan: the
first `key: value` line whose stripped key is `Implementation-Version`. -/
def manifestImplVersion : List String → Option String
  | [] => none
  | line0 :: rest =>
    match splitOnceChar ':' (pyStrip line0).data with
    | some (k, v) =>
      if pyStrip (String.mk k) = "Implementation-Version"
      then some (pyStrip (String.mk v))
      else manifestImplVersion rest
    | none => manifestImplVersion rest

/-- `ForgeTomlExtractor._get_version_from_manifest`: `none` when the
manifest entry is absent or unreadable or carries no such key. -/
def get_version_from_manifest (jar : Jar) : Option String :=
  if jar.entries.contains "META-INF/MANIFEST.MF" then
    match jar.rawOf "META-INF/MANIFEST.MF" with
    | none => none
    | some content => manifestImplVersion (strSplitChar '\n' content)
  else none

/-- `ForgeTomlExtractor.extract`.  The `mods` array must be truthy with a
dict first entry and a string (or absent) `version` field, otherwise an
access raises into `none`; a `$\x7b...\x7d` version placeholder triggers
the manifest fallback (`manifest_version or version`). -/
def forgeTomlExtract (jar : Jar) (p : PathInfo) : Option ModInfo :=
  match find_toml_file jar.entries with
  | none => none
  | some toml_file =>
    match jar.tomlOf toml_file with
    | none => none
    | some data =>
      let mods := (jLookup data "mods").getD (.list [])
      if !pyTruthy mods then none
      else
        match mods with
        | .list (mod0 :: _) =>
          (match mod0 with
           | .obj mo =>
             let mod_id := (jLookup mo "modId").getD (.str "")
             let name := (jLookup mo "displayName").getD
               ((jLookup mo "modId").getD (.str p.stem))
             (match (jLookup mo "version").getD (.str "Unknown") with
              | .str v0 =>
                let version :=
                  if strStartsWith v0 "$\x7b" && strEndsWith v0 "\x7d" then
                    match get_version_from_manifest jar with
                    | some mv => if mv = "" then v0 else mv
                    | none => v0
                  else v0
                (match detect_loader toml_file data p with
                 | none => none
                 | some loader =>
                   match extract_dependencies_from_toml data mod_id with
                   | none => none
                   | some dependencies =>
                     let author :=
                       match (jLookup mo "authors").getD .null with
                       | .str a => stripNonempty a
                       | _ => none
                     let description :=
                       descriptionOf ((jLookup mo "description").getD .null)
                     match extract_mc_versions_from_toml data mod_id with
                     | none => none
                     | some mc_versions =>
                       some { name := name, loader := loader,
                              version := .str version, filename := p.name,
                              mod_id := mod_id, dependencies := dependencies,
                              author := author, description := description,
                              mc_versions := mc_versions })
              | _ => none)
           | _ => none)
        | .str s =>
          (match s.data with
           | _ :: _ => none
           | [] => none)
        | _ => none

/-!  `LegacyForgeExtractor` (`extractors/forge.py`). -/

/-- `LegacyForgeExtractor.extract` over `mcmod.info`: the data may be a
nonempty JSON array (first element), a dict (unwrapped `modList` list's
first element, `{}` when that list is empty, or the dict itself), and
anything else returns `none`; the selected entry must be a dict (its
`.get` raises otherwise). -/
def legacyForgeExtract (jar : Jar) (p : PathInfo) : Option ModInfo :=
  match jar.jsonOf "mcmod.info" with
  | none => none
  | some data =>
    let modSel : Option JValue :=
      match data with
      | .list (x :: _) => some x
      | .obj o =>
        (match jLookup o "modList" with
         | some (.list ml) => some (ml.headD (.obj []))
         | some _ => some (.obj o)
         | none => some (.obj o))
      | _ => none
    match modSel with
    | none => none
    | some m =>
      match m with
      | .obj mo =>
        let mod_id := (jLookup mo "modid").getD (.str "")
        let name := (jLookup mo "name").getD ((jLookup mo "modid").getD (.str p.stem))
        let version := (jLookup mo "version").getD (.str "Unknown")
        let depsRaw := pyOr ((jLookup mo "dependencies").getD (.list []))
          ((jLookup mo "requiredMods").getD (.list []))
        let dependencies :=
          match depsRaw with
          | .list l => l.filter (fun d => match d with | .str _ => true | _ => false)
          | _ => []
        let author := normalize_authors (pyOr ((jLookup mo "authorList").getD .null)
          ((jLookup mo "authors").getD .null))
        let description := descriptionOf ((jLookup mo "description").getD .null)
        let mc_versions :=
          match (jLookup mo "mcversion").getD .null with
          | .str s => if s = "" then [] else parse_mc_versions (.str s)
          | _ => []
        some { name := name, loader := "forge", version := version,
               filename := p.name, mod_id := mod_id,
               dependencies := dependencies, author := author,
               description := description, mc_versions := mc_versions }
      | _ => none

/-!  The registry (`extractors/__init__.py`) and the scanner
(`scanner.py`). -/

/-- `FabricExtractor` as registered: priority 1, detects
`fabric.mod.json`. -/
def FabricExtractor : Extractor :=
  { name := "Fabric", priority := 1,
    can_extract := fun jar => jar.entries.contains "fabric.mod.json",
    extract := fabricExtract }

/-- `QuiltExtractor` as registered: priority 2, detects
`quilt.mod.json`. -/
def QuiltExtractor : Extractor :=
  { name := "Quilt", priority := 2,
    can_extract := fun jar => jar.entries.contains "quilt.mod.json",
    extract := quiltExtract }

/-- `ForgeTomlExtractor` as registered: priority 3, detects either TOML
path (and nothing at all when the TOML parser is unavailable). -/
def ForgeTomlExtractor : Extractor :=
  { name := "Forge/NeoForge TOML", priority := 3,
    can_extract := fun jar =>
      tomllibAvailable && TOML_FILES.any (fun tf => jar.entries.contains tf),
    extract := forgeTomlExtract }

/-- `LegacyForgeExtractor` as registered: priority 4, detects
`mcmod.info`. -/
def LegacyForgeExtractor : Extractor :=
  { name := "Legacy Forge", priority := 4,
    can_extract := fun jar => jar.entries.contains "mcmod.info",
    extract := legacyForgeExtract }

/-- `ALL_EXTRACTORS`, in registration order. -/
def ALL_EXTRACTORS : List Extractor :=
  [FabricExtractor, QuiltExtractor, ForgeTomlExtractor, LegacyForgeExtractor]

/-- `sorted(self.extractors, key=lambda e: e.priority)` in
`ModScanner.__init__` (CPython's sort is stable, as is insertion sort). -/
def sortExtractors (exs : List Extractor) : List Extractor :=
  List.insertionSort (fun a b => a.priority ≤ b.priority) exs

/-- `ModScanner._detect_loader_from_filename`. -/
def detect_loader_from_filename (filename : String) : String :=
  let fl := strToLower filename
  if strContains fl "fabric" then "fabric"
  else if strContains fl "neoforge" then "neoforge"
  else if strContains fl "forge" then "forge"
  else if strContains fl "quilt" then "quilt"
  else "unknown"

/-- The manifest line loop of `ModScanner._fallback_extraction`: later
`key: value` lines overwrite earlier ones; the accumulator is the
(name, version) seen so far. -/
def manifestNameVersion (acc : Option String × Option String) :
    List String → Option String × Option String
  | [] => acc
  | line0 :: rest =>
    match splitOnceChar ':' (pyStrip line0).data with
    | some (k0, v0) =>
      let key := pyStrip (String.mk k0)
      let value := pyStrip (String.mk v0)
      if key = "Implementation-Title" || key = "Bundle-Name" ||
          key = "Automatic-Module-Name" then
        manifestNameVersion (some value, acc.2) rest
      else if key = "Implementation-Version" || key = "Bundle-Version" then
        manifestNameVersion (acc.1, some value) rest
      else manifestNameVersion acc rest
    | none => manifestNameVersion acc rest

/-- `ModScanner._fallback_extraction`: a record from the manifest's
title/version fields (both must end up truthy), with the loader detected
from the filename; `none` when the manifest is absent or unreadable or
leaves either field falsy. -/
def fallback_extraction (jar : Jar) (p : PathInfo) : Option ModInfo :=
  if jar.entries.contains "META-INF/MANIFEST.MF" then
    match jar.rawOf "META-INF/MANIFEST.MF" with
    | none => none
    | some content =>
      match manifestNameVersion (none, none) (strSplitChar '\n' content) with
      | (some n, some v) =>
        if n ≠ "" && v ≠ "" then
          some { name := .str n, loader := detect_loader_from_filename p.name,
                 version := .str v, filename := p.name }
        else none
      | _ => none
  else none

/-- The extractor-selection loop of `ModScanner._extract_single_mod`:
each extractor is tried in list order; the first whose `can_extract`
holds has its `extract` run, and ONLY a truthy (`some`) result returns --
an extractor whose `extract` yields `none` falls through to the
lower-priority extractors. -/
def selectExtract (exs : List Extractor) (jar : Jar) (p : PathInfo) :
    Option ModInfo :=
  match exs with
  | [] => none
  | e :: rest =>
    if e.can_extract jar then
      match e.extract jar p with
      | some m => some m
      | none => selectExtract rest jar p
    else selectExtract rest jar p

/-- The field-by-field rebuild with `disabled=True` that
`_extract_single_mod` applies to a successfully extracted record. -/
def setDisabled (m : ModInfo) : ModInfo :=
  { name := m.name, loader := m.loader, version := m.version,
    filename := m.filename, mod_id := m.mod_id,
    dependencies := m.dependencies, author := m.author,
    description := m.description, mc_versions := m.mc_versions,
    disabled := true }

/-- The extraction pipeline inside an opened archive: the selection loop,
then the manifest fallback. -/
def pipelineExtract (exs : List Extractor) (jar : Jar) (p : PathInfo) :
    Option ModInfo :=
  match selectExtract exs jar p with
  | some m => some m
  | none => fallback_extraction jar p

/-- One candidate file as `_extract_single_mod` receives it: its path
and, when opening succeeds, the archive (`none` models
`zipfile.BadZipFile` -- also the catch-all `except Exception`, which is
unreachable here because every modelled failure below it returns
normally; its error text differs but no claim distinguishes the two). -/
structure JarFile where
  path : PathInfo
  zip : Option Jar

/-- `ModScanner._extract_single_mod`: corrupt archive gives
`(None, error)`; a pipeline record gives `(record, None)` with the
disabled flag applied as a final rebuild; otherwise a minimal record
synthesized from the filename plus a `no metadata` soft error.  The
source repeats the identical disabled rebuild in the extractor branch
and in the fallback branch; applying it once after the merged pipeline
is the same function. -/
def extractSingleMod (exs : List Extractor) (jf : JarFile) (disabled : Bool) :
    Option ModInfo × Option String :=
  match jf.zip with
  | none => (none, some ("Invalid or corrupted JAR file: " ++ jf.path.name))
  | some jar =>
    match pipelineExtract exs jar jf.path with
    | some m => (some (if disabled then setDisabled m else m), none)
    | none =>
      (some { name := .str jf.path.stem, loader := "unknown",
              version := .str "Unknown", filename := jf.path.name,
              disabled := disabled },
       some ("No mod metadata found in " ++ jf.path.name))

/-- `models.ScanResult` (the fields wall-clock bookkeeping fills,
`scan_duration` and `generated_at`, are outside the model). -/
structure ScanResult where
  mods : List ModInfo := []
  errors : List String := []
  total_files : Nat := 0

/-- The collection loop of `scan_folder`: one record and/or one error
appended per completed file.  `as_completed` yields futures in an
arbitrary completion order; the model folds in list order, which fixes
one admissible order (no claim depends on it). -/
def processFiles (exs : List Extractor) : List (JarFile × Bool) →
    List ModInfo × List String
  | [] => ([], [])
  | (jf, d) :: rest =>
    let r := extractSingleMod exs jf d
    let acc := processFiles exs rest
    (r.1.toList ++ acc.1, r.2.toList ++ acc.2)

/-- The filesystem as `scan_folder` observes it: existence and kind of
the root, the glob results for the two candidate patterns at either
recursion depth, and the per-pattern exclusion-glob membership (a file is
in `folder.glob(pattern)` iff its name matches the pattern at that
depth). -/
structure Folder where
  pathExists : Bool
  isDir : Bool
  jarFiles : Bool → List JarFile
  disabledFiles : Bool → List JarFile
  matchesPattern : Bool → String → String → Bool
  pname : String

/-- `scan_folder`'s candidate-file computation: the `*.jar` glob result,
plus the `*.jar.disabled` result when disabled files are included, minus
every file an exclusion pattern globs.  Membership of a candidate in
`disabled_set` is modelled by the Bool tag: a `*.jar` path never equals a
`*.jar.disabled` path. -/
def candidateFiles (fs : Folder) (recursive : Bool)
    (exclude_patterns : List String) (include_disabled : Bool) :
    List (JarFile × Bool) :=
  let all0 := (fs.jarFiles recursive).map (fun f => (f, false)) ++
    (if include_disabled then (fs.disabledFiles recursive).map (fun f => (f, true))
     else [])
  exclude_patterns.foldl
    (fun acc pat =>
      acc.filter (fun fd => !(fs.matchesPattern recursive pat fd.1.path.name)))
    all0

/-- The two setup failures of `scan_folder`: `FileNotFoundError` and
`ValueError`. -/
inductive ScanError where
  | notFound (msg : String)
  | notADirectory (msg : String)

/-- `ModScanner.scan_folder`: the setup checks, file discovery and
filtering, the empty-candidates early return, and otherwise the
aggregate of one inspection per candidate.  `total_files` is fixed to the
candidate count before processing.  The worker pool, the progress
callback and the timing fields are not modelled (the callback is
advisory and the pool only affects completion order). -/
def scan_folder (exs : List Extractor) (fs : Folder) (recursive : Bool)
    (exclude_patterns : List String) (include_disabled : Bool) :
    Except ScanError ScanResult :=
  if !fs.pathExists then
    .error (.notFound ("Folder not found: " ++ fs.pname))
  else if !fs.isDir then
    .error (.notADirectory ("Path is not a directory: " ++ fs.pname))
  else
    let all_files := candidateFiles fs recursive exclude_patterns include_disabled
    if all_files.isEmpty then .ok { total_files := 0 }
    else
      let pr := processFiles exs all_files
      .ok { mods := pr.1, errors := pr.2, total_files := all_files.length }

/-!  Helper lemmas. -/

theorem lexLeChars_total (a b : List Char) :
    lexLeChars a b = true ∨ lexLeChars b a = true := by
  induction a generalizing b with
  | nil => exact Or.inl rfl
  | cons x xs ih =>
    cases b with
    | nil => exact Or.inr rfl
    | cons y ys =>
      by_cases h1 : x.toNat < y.toNat
      · exact Or.inl (by simp [lexLeChars, h1])
      · by_cases h2 : y.toNat < x.toNat
        · exact Or.inr (by simp [lexLeChars, h2])
        · rcases ih ys with h | h
          · exact Or.inl (by simp [lexLeChars, h1, h2, h])
          · exact Or.inr (by simp [lexLeChars, h1, h2, h])

theorem lexLeChars_trans {a b c : List Char} (hab : lexLeChars a b = true)
    (hbc : lexLeChars b c = true) : lexLeChars a c = true := by
  induction a generalizing b c with
  | nil => rfl
  | cons x xs ih =>
    cases b with
    | nil => simp [lexLeChars] at hab
    | cons y ys =>
      cases c with
      | nil => simp [lexLeChars] at hbc
      | cons z zs =>
        simp only [lexLeChars] at hab hbc ⊢
        by_cases h2 : y.toNat < z.toNat
        · by_cases h3 : z.toNat < y.toNat
          · omega
          · by_cases h1 : x.toNat < y.toNat
            · simp [show x.toNat < z.toNat by omega]
            · by_cases h4 : y.toNat < x.toNat
              · simp [h1, h4] at hab
              · simp [show x.toNat < z.toNat by omega]
        · by_cases h3 : z.toNat < y.toNat
          · simp [h2, h3] at hbc
          · have hyz : y.toNat = z.toNat := by omega
            by_cases h1 : x.toNat < y.toNat
            · simp [show x.toNat < z.toNat by omega]
            · by_cases h4 : y.toNat < x.toNat
              · simp [h1, h4] at hab
              · simp [h1, h4] at hab
                simp [h2, h3] at hbc
                simp [show ¬ x.toNat < z.toNat by omega,
                      show ¬ z.toNat < x.toNat by omega]
                exact ih hab hbc

instance : IsTotal String (fun a b => strLe a b = true) :=
  ⟨fun a b => lexLeChars_total a.data b.data⟩

instance : IsTrans String (fun a b => strLe a b = true) :=
  ⟨fun _ _ _ hab hbc => lexLeChars_trans hab hbc⟩

theorem sortStrings_sorted (xs : List String) :
    List.Sorted (fun a b => strLe a b = true) (sortStrings xs) :=
  List.sorted_insertionSort (fun a b => strLe a b = true) xs

theorem sortStrings_perm (xs : List String) : (sortStrings xs).Perm xs :=
  List.perm_insertionSort (fun a b => strLe a b = true) xs

theorem pySetListAux_mem {seen xs : List String} {y : String}
    (h : y ∈ pySetListAux seen xs) : y ∈ xs := by
  induction xs generalizing seen with
  | nil => simp [pySetListAux] at h
  | cons x rest ih =>
    simp only [pySetListAux] at h
    split at h
    · exact List.mem_cons_of_mem _ (ih h)
    · rcases List.mem_cons.mp h with h | h
      · exact h ▸ List.mem_cons_self _ _
      · exact List.mem_cons_of_mem _ (ih h)

theorem pySetListAux_not_mem_seen {seen xs : List String} {y : String}
    (h : y ∈ pySetListAux seen xs) : y ∉ seen := by
  induction xs generalizing seen with
  | nil => simp [pySetListAux] at h
  | cons x rest ih =>
    simp only [pySetListAux] at h
    split at h
    · exact ih h
    · rename_i hx
      rcases List.mem_cons.mp h with h | h
      · exact h ▸ hx
      · intro hy
        exact ih h (List.mem_cons_of_mem _ hy)

theorem pySetListAux_nodup (seen xs : List String) :
    (pySetListAux seen xs).Nodup := by
  induction xs generalizing seen with
  | nil => exact List.nodup_nil
  | cons x rest ih =>
    simp only [pySetListAux]
    split
    · exact ih seen
    · exact List.nodup_cons.mpr
        ⟨fun hmem => pySetListAux_not_mem_seen hmem (List.mem_cons_self _ _),
         ih (x :: seen)⟩

theorem pySetList_nodup (xs : List String) : (pySetList xs).Nodup :=
  pySetListAux_nodup [] xs

theorem pySetList_mem {xs : List String} {y : String} (h : y ∈ pySetList xs) :
    y ∈ xs := pySetListAux_mem h

theorem selectExtract_eq_findSome (exs : List Extractor) (jar : Jar)
    (p : PathInfo) :
    selectExtract exs jar p =
      (exs.filter (fun e => e.can_extract jar)).findSome?
        (fun e => e.extract jar p) := by
  induction exs with
  | nil => rfl
  | cons e rest ih =>
    simp only [selectExtract, List.filter_cons]
    by_cases hc : e.can_extract jar
    · simp only [hc, if_pos, List.findSome?_cons]
      cases e.extract jar p <;> simp [ih]
    · simp only [hc]
      simpa using ih

theorem selectExtract_none_of_no_can {exs : List Extractor} {jar : Jar}
    (p : PathInfo) (h : ∀ e ∈ exs, e.can_extract jar = false) :
    selectExtract exs jar p = none := by
  induction exs with
  | nil => rfl
  | cons e rest ih =>
    simp only [selectExtract, h e (List.mem_cons_self _ _)]
    simp only [Bool.false_eq_true, if_false]
    exact ih (fun e2 he2 => h e2 (List.mem_cons_of_mem _ he2))

theorem processFiles_append (exs : List Extractor)
    (l1 l2 : List (JarFile × Bool)) :
    processFiles exs (l1 ++ l2) =
      ((processFiles exs l1).1 ++ (processFiles exs l2).1,
       (processFiles exs l1).2 ++ (processFiles exs l2).2) := by
  induction l1 with
  | nil => simp [processFiles]
  | cons fd rest ih =>
    obtain ⟨jf, d⟩ := fd
    simp [processFiles, ih]

theorem extractSingleMod_cases (exs : List Extractor) (jf : JarFile)
    (d : Bool) :
    (extractSingleMod exs jf d).1.toList.length ≤ 1 ∧
    (extractSingleMod exs jf d).2.toList.length ≤ 1 ∧
    1 ≤ (extractSingleMod exs jf d).1.toList.length +
        (extractSingleMod exs jf d).2.toList.length := by
  unfold extractSingleMod
  cases hz : jf.zip with
  | none => simp
  | some jar =>
    cases hp : pipelineExtract exs jar jf.path with
    | none => simp [hp]
    | some m => simp [hp]

theorem processFiles_counts (exs : List Extractor)
    (files : List (JarFile × Bool)) :
    (processFiles exs files).1.length ≤ files.length ∧
    (processFiles exs files).2.length ≤ files.length ∧
    files.length ≤ (processFiles exs files).1.length +
      (processFiles exs files).2.length := by
  induction files with
  | nil => simp [processFiles]
  | cons fd rest ih =>
    obtain ⟨jf, d⟩ := fd
    have h1 := extractSingleMod_cases exs jf d
    simp only [processFiles, List.length_append, List.length_cons]
    omega

/-!  Claim theorems. -/

/-- C9: `scan_folder` fails with a not-found error when the root does
not exist and with an invalid-input error when it is not a directory --
both branches are taken before file discovery or processing, for every
folder content -- and with zero candidates after filtering it returns
normally with zero files considered, no mods and no errors. -/
theorem scan_setup_errors_and_empty_result :
    (∀ (exs : List Extractor) (fs : Folder) (recursive : Bool)
       (excl : List String) (incdis : Bool), fs.pathExists = false →
       scan_folder exs fs recursive excl incdis =
         .error (.notFound ("Folder not found: " ++ fs.pname))) ∧
    (∀ (exs : List Extractor) (fs : Folder) (recursive : Bool)
       (excl : List String) (incdis : Bool),
       fs.pathExists = true → fs.isDir = false →
       scan_folder exs fs recursive excl incdis =
         .error (.notADirectory ("Path is not a directory: " ++ fs.pname))) ∧
    (∀ (exs : List Extractor) (fs : Folder) (recursive : Bool)
       (excl : List String) (incdis : Bool),
       fs.pathExists = true → fs.isDir = true →
       candidateFiles fs recursive excl incdis = [] →
       scan_folder exs fs recursive excl incdis =
         .ok { mods := [], errors := [], total_files := 0 }) := by
  refine ⟨?_, ?_, ?_⟩
  · intro exs fs recursive excl incdis h
    simp [scan_folder, h]
  · intro exs fs recursive excl incdis h1 h2
    simp [scan_folder, h1, h2]
  · intro exs fs recursive excl incdis h1 h2 h3
    simp [scan_folder, h1, h2, h3]

/-- An empty, existing directory (and an absent path, and a plain file),
for the C9 witness. -/
def emptyFolder : Folder :=
  { pathExists := true, isDir := true, jarFiles := fun _ => [],
    disabledFiles := fun _ => [], matchesPattern := fun _ _ _ => false,
    pname := "mods" }

/-- Witness for C9 at concrete folders: a missing path errors, a
non-directory errors, and an empty directory yields the zero aggregate. -/
theorem scan_setup_errors_and_empty_result_witness :
    ({ emptyFolder with pathExists := false : Folder }.pathExists = false ∧
     scan_folder [] { emptyFolder with pathExists := false } false [] false =
       .error (.notFound "Folder not found: mods")) ∧
    ({ emptyFolder with isDir := false : Folder }.isDir = false ∧
     scan_folder [] { emptyFolder with isDir := false } false [] false =
       .error (.notADirectory "Path is not a directory: mods")) ∧
    (candidateFiles emptyFolder false [] false = [] ∧
     scan_folder [] emptyFolder false [] false =
       .ok { mods := [], errors := [], total_files := 0 }) :=
  ⟨⟨rfl, scan_setup_errors_and_empty_result.1 [] _ false [] false rfl⟩,
   ⟨rfl, scan_setup_errors_and_empty_result.2.1 [] _ false [] false rfl rfl⟩,
   ⟨rfl, scan_setup_errors_and_empty_result.2.2 [] _ false [] false rfl rfl rfl⟩⟩

/-- C10: per candidate file, `_extract_single_mod` yields at most one
record and at most one error and never neither; hence on every aggregate
a completed scan returns, the record count and the error count are each
at most the files-considered total, and their sum is at least it. -/
theorem scan_aggregate_counts_invariant
    (exs : List Extractor) (fs : Folder) (recursive : Bool)
    (excl : List String) (incdis : Bool) (r : ScanResult)
    (h : scan_folder exs fs recursive excl incdis = .ok r) :
    (∀ jf d, extractSingleMod exs jf d ≠ (none, none)) ∧
    r.mods.length ≤ r.total_files ∧ r.errors.length ≤ r.total_files ∧
    r.total_files ≤ r.mods.length + r.errors.length := by
  have hnn : ∀ jf d, extractSingleMod exs jf d ≠ (none, none) := by
    intro jf d hq
    have h1 := (extractSingleMod_cases exs jf d).2.2
    rw [hq] at h1
    simp at h1
  refine ⟨hnn, ?_⟩
  unfold scan_folder at h
  by_cases hpe : fs.pathExists
  · by_cases hdir : fs.isDir
    · by_cases hce : (candidateFiles fs recursive excl incdis).isEmpty
      · simp only [hpe, hdir, hce, Bool.not_true, Bool.false_eq_true,
          if_false, if_true, Except.ok.injEq] at h
        subst h
        simp
      · simp only [hpe, hdir, hce, Bool.not_true, Bool.false_eq_true,
          if_false, Except.ok.injEq] at h
        subst h
        have hc := processFiles_counts exs
          (candidateFiles fs recursive excl incdis)
        simpa using hc
    · simp [hpe, hdir, scan_folder] at h
  · simp [hpe, scan_folder] at h

/-- A folder holding one corrupt jar, for the C10 and C8 witnesses. -/
def corruptFile : JarFile :=
  { path := { name := "bad.jar", stem := "bad" }, zip := none }

/-- A folder with a single corrupt `.jar` file. -/
def corruptFolder : Folder :=
  { pathExists := true, isDir := true,
    jarFiles := fun _ => [corruptFile],
    disabledFiles := fun _ => [], matchesPattern := fun _ _ _ => false,
    pname := "mods" }

/-- Witness for C10 on the one-corrupt-file folder. -/
theorem scan_aggregate_counts_invariant_witness :
    (scan_folder (sortExtractors ALL_EXTRACTORS) corruptFolder false [] false =
      .ok { mods := [], errors := ["Invalid or corrupted JAR file: bad.jar"],
            total_files := 1 }) ∧
    ((∀ jf d, extractSingleMod (sortExtractors ALL_EXTRACTORS) jf d ≠
       (none, none)) ∧
     ([] : List ModInfo).length ≤ 1 ∧
     ["Invalid or corrupted JAR file: bad.jar"].length ≤ 1 ∧
     1 ≤ ([] : List ModInfo).length +
       ["Invalid or corrupted JAR file: bad.jar"].length) :=
  ⟨rfl, scan_aggregate_counts_invariant (sortExtractors ALL_EXTRACTORS)
    corruptFolder false [] false _ rfl⟩

/-- C3: when an archive flagged disabled yields a record through an
extractor or the manifest fallback, the emitted record is that record
with `disabled` set and every other field unchanged -- for every
extractor list, i.e. regardless of which extractor produced it. -/
theorem disabled_flag_final_transform (exs : List Extractor) (jf : JarFile)
    (jar : Jar) (r : ModInfo) (hz : jf.zip = some jar)
    (hr : pipelineExtract exs jar jf.path = some r) :
    ∃ m, extractSingleMod exs jf true = (some m, none) ∧
      m.disabled = true ∧ m.name = r.name ∧ m.loader = r.loader ∧
      m.version = r.version ∧ m.filename = r.filename ∧
      m.mod_id = r.mod_id ∧ m.dependencies = r.dependencies ∧
      m.author = r.author ∧ m.description = r.description ∧
      m.mc_versions = r.mc_versions := by
  refine ⟨setDisabled r, ?_, rfl, rfl, rfl, rfl, rfl, rfl, rfl, rfl, rfl, rfl⟩
  simp [extractSingleMod, hz, hr]

/-- A small well-formed Fabric archive for the C3 and C1 witnesses. -/
def fabricJarW : Jar :=
  { entries := ["fabric.mod.json"],
    jsonOf := fun f =>
      if f = "fabric.mod.json" then
        some (.obj [("id", .str "fmod"), ("name", .str "FMod"),
                    ("version", .str "1.1")])
      else none,
    tomlOf := fun _ => none, rawOf := fun _ => none }

/-- The path of the witness archive. -/
def wPath : PathInfo := { name := "m.jar", stem := "m" }

/-- The record `fabricJarW` extracts to. -/
def fabricRecW : ModInfo :=
  { name := .str "FMod", loader := "fabric", version := .str "1.1",
    filename := "m.jar", mod_id := .str "fmod" }

/-- Witness for C3: the disabled Fabric archive is emitted with
`disabled=true` and all other fields as extracted. -/
theorem disabled_flag_final_transform_witness :
    ({ path := wPath, zip := some fabricJarW : JarFile }.zip =
       some fabricJarW ∧
     pipelineExtract (sortExtractors ALL_EXTRACTORS) fabricJarW wPath =
       some fabricRecW) ∧
    (∃ m, extractSingleMod (sortExtractors ALL_EXTRACTORS)
        { path := wPath, zip := some fabricJarW } true = (some m, none) ∧
      m.disabled = true ∧ m.name = fabricRecW.name ∧
      m.loader = fabricRecW.loader ∧ m.version = fabricRecW.version ∧
      m.filename = fabricRecW.filename ∧ m.mod_id = fabricRecW.mod_id ∧
      m.dependencies = fabricRecW.dependencies ∧
      m.author = fabricRecW.author ∧ m.description = fabricRecW.description ∧
      m.mc_versions = fabricRecW.mc_versions) :=
  ⟨⟨rfl, rfl⟩,
   disabled_flag_final_transform (sortExtractors ALL_EXTRACTORS)
     { path := wPath, zip := some fabricJarW } fabricJarW fabricRecW rfl rfl⟩

/-- C8: a candidate file that is not a readable archive contributes no
record and exactly one error string naming its filename; inserting such a
file anywhere in the work list leaves every other file's records
untouched and adds exactly its one error; and on every completed scan the
files-considered total equals the candidate count (so the corrupt file is
still counted in it). -/
theorem corrupt_archive_one_error_scan_continues (jf : JarFile) (d : Bool)
    (hz : jf.zip = none) :
    extractSingleMod (sortExtractors ALL_EXTRACTORS) jf d =
      (none, some ("Invalid or corrupted JAR file: " ++ jf.path.name)) ∧
    (∃ pre, "Invalid or corrupted JAR file: " ++ jf.path.name =
      pre ++ jf.path.name) ∧
    (∀ l1 l2,
      (processFiles (sortExtractors ALL_EXTRACTORS) (l1 ++ (jf, d) :: l2)).1 =
        (processFiles (sortExtractors ALL_EXTRACTORS) (l1 ++ l2)).1 ∧
      (processFiles (sortExtractors ALL_EXTRACTORS) (l1 ++ (jf, d) :: l2)).2 =
        (processFiles (sortExtractors ALL_EXTRACTORS) l1).2 ++
          ("Invalid or corrupted JAR file: " ++ jf.path.name) ::
          (processFiles (sortExtractors ALL_EXTRACTORS) l2).2) ∧
    (∀ (fs : Folder) (recursive : Bool) (excl : List String) (incdis : Bool)
       (r : ScanResult),
      scan_folder (sortExtractors ALL_EXTRACTORS) fs recursive excl incdis =
        .ok r →
      r.total_files = (candidateFiles fs recursive excl incdis).length) := by
  have hone : extractSingleMod (sortExtractors ALL_EXTRACTORS) jf d =
      (none, some ("Invalid or corrupted JAR file: " ++ jf.path.name)) := by
    simp [extractSingleMod, hz]
  refine ⟨hone, ⟨"Invalid or corrupted JAR file: ", rfl⟩, ?_, ?_⟩
  · intro l1 l2
    have ha := processFiles_append (sortExtractors ALL_EXTRACTORS) l1
      ((jf, d) :: l2)
    have hb := processFiles_append (sortExtractors ALL_EXTRACTORS) l1 l2
    constructor
    · rw [ha, hb]
      simp [processFiles, hone]
    · rw [ha]
      simp [processFiles, hone]
  · intro fs recursive excl incdis r h
    unfold scan_folder at h
    by_cases hpe : fs.pathExists
    · by_cases hdir : fs.isDir
      · by_cases hce : (candidateFiles fs recursive excl incdis).isEmpty
        · simp only [hpe, hdir, hce, Bool.not_true, Bool.false_eq_true,
            if_false, if_true, Except.ok.injEq] at h
          subst h
          simp [List.isEmpty_iff.mp hce]
        · simp only [hpe, hdir, hce, Bool.not_true, Bool.false_eq_true,
            if_false, Except.ok.injEq] at h
          subst h
          rfl
      · simp [hpe, hdir, scan_folder] at h
    · simp [hpe, scan_folder] at h

/-- Witness for C8: one corrupt file between two other files (an empty
folder's worth on the left, one good Fabric archive on the right). -/
theorem corrupt_archive_one_error_scan_continues_witness :
    (corruptFile.zip = none) ∧
    (extractSingleMod (sortExtractors ALL_EXTRACTORS) corruptFile false =
      (none, some "Invalid or corrupted JAR file: bad.jar") ∧
     (∃ pre, "Invalid or corrupted JAR file: " ++ corruptFile.path.name =
       pre ++ corruptFile.path.name) ∧
     (processFiles (sortExtractors ALL_EXTRACTORS)
        ([] ++ (corruptFile, false) ::
          [({ path := wPath, zip := some fabricJarW }, false)])).1 =
      (processFiles (sortExtractors ALL_EXTRACTORS)
        ([] ++ [({ path := wPath, zip := some fabricJarW }, false)])).1) := by
  have h := corrupt_archive_one_error_scan_continues corruptFile false rfl
  exact ⟨rfl, h.1, h.2.1,
    (h.2.2.1 [] [({ path := wPath, zip := some fabricJarW }, false)]).1⟩

/-- C7: a readable archive that no extractor claims and whose manifest
fallback yields nothing is emitted as exactly one minimal record (name
from the path stem, loader `unknown`, version `"Unknown"`) together with
exactly one soft error naming the archive's filename; the remaining work
list is processed unchanged around it. -/
theorem no_metadata_minimal_record_and_error (jf : JarFile) (jar : Jar)
    (d : Bool) (hz : jf.zip = some jar)
    (hcan : ∀ e ∈ sortExtractors ALL_EXTRACTORS, e.can_extract jar = false)
    (hfb : fallback_extraction jar jf.path = none) :
    extractSingleMod (sortExtractors ALL_EXTRACTORS) jf d =
      (some { name := .str jf.path.stem, loader := "unknown",
              version := .str "Unknown", filename := jf.path.name,
              disabled := d },
       some ("No mod metadata found in " ++ jf.path.name)) ∧
    (∃ pre, "No mod metadata found in " ++ jf.path.name =
      pre ++ jf.path.name) ∧
    (∀ l1 l2,
      processFiles (sortExtractors ALL_EXTRACTORS) (l1 ++ (jf, d) :: l2) =
        ((processFiles (sortExtractors ALL_EXTRACTORS) l1).1 ++
          { name := .str jf.path.stem, loader := "unknown",
            version := .str "Unknown", filename := jf.path.name,
            disabled := d } ::
          (processFiles (sortExtractors ALL_EXTRACTORS) l2).1,
         (processFiles (sortExtractors ALL_EXTRACTORS) l1).2 ++
          ("No mod metadata found in " ++ jf.path.name) ::
          (processFiles (sortExtractors ALL_EXTRACTORS) l2).2)) := by
  have hsel : selectExtract (sortExtractors ALL_EXTRACTORS) jar jf.path =
      none := selectExtract_none_of_no_can jf.path hcan
  have hpl : pipelineExtract (sortExtractors ALL_EXTRACTORS) jar jf.path =
      none := by
    simp [pipelineExtract, hsel, hfb]
  have hone : extractSingleMod (sortExtractors ALL_EXTRACTORS) jf d =
      (some { name := .str jf.path.stem, loader := "unknown",
              version := .str "Unknown", filename := jf.path.name,
              disabled := d },
       some ("No mod metadata found in " ++ jf.path.name)) := by
    simp [extractSingleMod, hz, hpl]
  refine ⟨hone, ⟨"No mod metadata found in ", rfl⟩, ?_⟩
  intro l1 l2
  have ha := processFiles_append (sortExtractors ALL_EXTRACTORS) l1
    ((jf, d) :: l2)
  rw [ha]
  simp [processFiles, hone]

/-- An archive with no recognized metadata entries at all, for the C7
witness. -/
def bareJar : Jar :=
  { entries := ["foo/Bar.class"], jsonOf := fun _ => none,
    tomlOf := fun _ => none, rawOf := fun _ => none }

/-- Witness for C7 on the metadata-free archive. -/
theorem no_metadata_minimal_record_and_error_witness :
    (({ path := wPath, zip := some bareJar : JarFile }.zip = some bareJar) ∧
     (∀ e ∈ sortExtractors ALL_EXTRACTORS, e.can_extract bareJar = false) ∧
     fallback_extraction bareJar wPath = none) ∧
    extractSingleMod (sortExtractors ALL_EXTRACTORS)
        { path := wPath, zip := some bareJar } false =
      (some { name := .str "m", loader := "unknown",
              version := .str "Unknown", filename := "m.jar",
              disabled := false },
       some "No mod metadata found in m.jar") :=
  ⟨⟨rfl, by decide, rfl⟩,
   (no_metadata_minimal_record_and_error
     { path := wPath, zip := some bareJar } bareJar false rfl
     (by decide) rfl).1⟩

/-- An archive carrying both Fabric and Quilt metadata entries whose
`fabric.mod.json` is malformed (its JSON does not parse) while its
`quilt.mod.json` is valid -- the C1 counterexample. -/
def dualJarC1 : Jar :=
  { entries := ["fabric.mod.json", "quilt.mod.json"],
    jsonOf := fun f =>
      if f = "quilt.mod.json" then
        some (.obj [("quilt_loader",
          .obj [("id", .str "qmod"), ("version", .str "2.0")])])
      else none,
    tomlOf := fun _ => none, rawOf := fun _ => none }

/-- Counterexample to C1: on `dualJarC1`, `FabricExtractor` claims the
archive (`can_extract` true) and its `extract` fails, yet the selection
loop goes on to consult `QuiltExtractor`, whose record (loader
`"quilt"`) becomes the result -- so a chosen extractor's failure is not
final, and Fabric is not the extractor whose record is produced even
though both metadata files are present. -/
theorem extractor_failure_falls_through_cex :
    FabricExtractor.can_extract dualJarC1 = true ∧
    QuiltExtractor.can_extract dualJarC1 = true ∧
    FabricExtractor.extract dualJarC1 wPath = none ∧
    (selectExtract (sortExtractors ALL_EXTRACTORS) dualJarC1 wPath).map
      ModInfo.loader = some "quilt" :=
  ⟨by decide, by decide, rfl, rfl⟩

/-- C1 amended: the registered priorities are Fabric=1, Quilt=2,
ForgeToml=3, LegacyForge=4 and the scanner's priority sort keeps the
registration order; the selection loop returns the result of the FIRST
extractor (in that order) whose detection predicate holds AND whose
`extract` yields a record -- an extractor whose `extract` fails is
skipped and lower-priority extractors are consulted.  In particular, for
an archive containing `fabric.mod.json`, whenever `FabricExtractor`'s
`extract` succeeds its record is the selection result. -/
theorem extractor_selection_priority_amended :
    (FabricExtractor.priority = 1 ∧ QuiltExtractor.priority = 2 ∧
     ForgeTomlExtractor.priority = 3 ∧ LegacyForgeExtractor.priority = 4) ∧
    sortExtractors ALL_EXTRACTORS = ALL_EXTRACTORS ∧
    (∀ (exs : List Extractor) (jar : Jar) (p : PathInfo),
      selectExtract exs jar p =
        (exs.filter (fun e => e.can_extract jar)).findSome?
          (fun e => e.extract jar p)) ∧
    (∀ (jar : Jar) (p : PathInfo) (m : ModInfo),
      jar.entries.contains "fabric.mod.json" = true →
      FabricExtractor.extract jar p = some m →
      selectExtract (sortExtractors ALL_EXTRACTORS) jar p = some m) := by
  refine ⟨⟨rfl, rfl, rfl, rfl⟩, rfl, selectExtract_eq_findSome, ?_⟩
  intro jar p m hc hm
  have hsorted : sortExtractors ALL_EXTRACTORS = ALL_EXTRACTORS := rfl
  rw [hsorted]
  show selectExtract (FabricExtractor :: [QuiltExtractor, ForgeTomlExtractor,
    LegacyForgeExtractor]) jar p = some m
  simp only [selectExtract]
  have hce : FabricExtractor.can_extract jar = true := hc
  rw [hce, if_pos rfl, hm]

/-- Witness for C1 (amended) on a well-formed Fabric archive: Fabric's
extract succeeds and its record is the selection result. -/
theorem extractor_selection_priority_amended_witness :
    (fabricJarW.entries.contains "fabric.mod.json" = true ∧
     FabricExtractor.extract fabricJarW wPath = some fabricRecW) ∧
    selectExtract (sortExtractors ALL_EXTRACTORS) fabricJarW wPath =
      some fabricRecW :=
  ⟨⟨by decide, rfl⟩,
   extractor_selection_priority_amended.2.2.2 fabricJarW wPath fabricRecW
     (by decide) rfl⟩

/-- For a fixed `META-INF/neoforge.mods.toml` choice, `_detect_loader`
answers `neoforge` immediately: the file-path test is its first rule. -/
theorem detect_loader_neoforge_path (data : List (String × JValue))
    (p : PathInfo) :
    detect_loader "META-INF/neoforge.mods.toml" data p = some "neoforge" := by
  unfold detect_loader
  rw [if_pos]
  decide

/-- C6: on any archive whose entries contain
`META-INF/neoforge.mods.toml`, every record `ForgeTomlExtractor`
produces is classified `neoforge`, regardless of the `modLoader` field
(or anything else in the TOML data): the path rule precedes and decides. -/
theorem neoforge_path_beats_modloader_field (jar : Jar) (p : PathInfo)
    (m : ModInfo)
    (he : jar.entries.contains "META-INF/neoforge.mods.toml" = true)
    (hm : forgeTomlExtract jar p = some m) : m.loader = "neoforge" := by
  have hfind : find_toml_file jar.entries =
      some "META-INF/neoforge.mods.toml" := by
    unfold find_toml_file TOML_FILES
    exact List.find?_cons_of_pos _ he
  unfold forgeTomlExtract at hm
  rw [hfind] at hm
  dsimp only at hm
  rcases htoml : jar.tomlOf "META-INF/neoforge.mods.toml" with _ | data
  · rw [htoml] at hm
    exact absurd hm (by simp)
  · rw [htoml] at hm
    dsimp only at hm
    rw [detect_loader_neoforge_path data p] at hm
    dsimp only at hm
    repeat' split at hm
    all_goals first
      | exact Option.noConfusion hm
      | (rw [Option.some.injEq] at hm
         subst hm
         rfl)

/-- An archive whose `META-INF/neoforge.mods.toml` declares
`modLoader = "javafml"` (a Forge-style loader id), for the C6 witness. -/
def neoJarW : Jar :=
  { entries := ["META-INF/neoforge.mods.toml"],
    tomlOf := fun f =>
      if f = "META-INF/neoforge.mods.toml" then
        some [("modLoader", .str "javafml"),
              ("mods", .list [.obj [("modId", .str "nmod"),
                                    ("version", .str "3.0")]])]
      else none,
    jsonOf := fun _ => none, rawOf := fun _ => none }

/-- The record `neoJarW` extracts to. -/
def neoRecW : ModInfo :=
  { name := .str "nmod", loader := "neoforge", version := .str "3.0",
    filename := "m.jar", mod_id := .str "nmod" }

/-- Witness for C6: despite `modLoader = "javafml"`, the produced record
is classified `neoforge`. -/
theorem neoforge_path_beats_modloader_field_witness :
    (neoJarW.entries.contains "META-INF/neoforge.mods.toml" = true ∧
     forgeTomlExtract neoJarW wPath = some neoRecW) ∧
    neoRecW.loader = "neoforge" :=
  ⟨⟨by decide, rfl⟩,
   neoforge_path_beats_modloader_field neoJarW wPath neoRecW (by decide) rfl⟩

/-- Counterexample to C2: for a sequence input the parser returns the
union as `list(set(...))` WITHOUT sorting -- under the model's fixed
set-iteration order, `["1.20", "1.19"]` comes back in encounter order,
which is not lexicographically sorted (and CPython's actual set order is
hash-dependent, so no sorted order is guaranteed either). -/
theorem parse_sequence_not_sorted_cex :
    parse_mc_versions (.list [.str "1.20", .str "1.19"]) = ["1.20", "1.19"] ∧
    ¬ List.Sorted (fun a b => strLe a b = true)
        (parse_mc_versions (.list [.str "1.20", .str "1.19"])) := by
  constructor
  · decide
  · intro hs
    rw [show parse_mc_versions (.list [.str "1.20", .str "1.19"]) =
        ["1.20", "1.19"] by decide] at hs
    have h1 := (List.sorted_cons.mp hs).1 "1.19" (by decide)
    exact absurd h1 (by decide)

/-- C2 amended: the parser's output is always deduplicated; for a
single-string input it is additionally sorted in lexicographic order;
for a sequence input the union is deduplicated but its order is the
set's iteration order, not sorted. -/
theorem parse_dedup_sorted_amended :
    (∀ s : String, (parse_mc_versions (.str s)).Nodup ∧
      List.Sorted (fun a b => strLe a b = true)
        (parse_mc_versions (.str s))) ∧
    (∀ v : JValue, (parse_mc_versions v).Nodup) := by
  have hstr : ∀ s : String, (parse_mc_versions (.str s)).Nodup ∧
      List.Sorted (fun a b => strLe a b = true)
        (parse_mc_versions (.str s)) := by
    intro s
    unfold parse_mc_versions
    by_cases hs : s = ""
    · simp [hs]
    · simp only [hs, if_false]
      constructor
      · exact (sortStrings_perm _).nodup_iff.mpr (pySetList_nodup _)
      · exact sortStrings_sorted _
  refine ⟨hstr, ?_⟩
  intro v
  cases v with
  | str s => exact (hstr s).1
  | list items =>
    unfold parse_mc_versions
    by_cases hi : items.isEmpty
    · simp [hi]
    · simp only [hi, if_false]
      exact pySetList_nodup _
  | null => exact List.nodup_nil
  | bool b => exact List.nodup_nil
  | int n => exact List.nodup_nil
  | obj o => exact List.nodup_nil

/-- Witness for C2 (amended) at concrete inputs: a string constraint
yields a deduplicated sorted output, and a sequence input a
deduplicated one. -/
theorem parse_dedup_sorted_amended_witness :
    ((parse_mc_versions (.str ">=1.20 <1.21")).Nodup ∧
     List.Sorted (fun a b => strLe a b = true)
       (parse_mc_versions (.str ">=1.20 <1.21"))) ∧
    (parse_mc_versions (.list [.str "1.20", .str "1.19"])).Nodup :=
  ⟨parse_dedup_sorted_amended.1 ">=1.20 <1.21",
   parse_dedup_sorted_amended.2 (.list [.str "1.20", .str "1.19"])⟩

/-- C5: the parser's point values -- `"1.20.x"` gives `{"1.20"}`,
`">=1.20 <1.21"` gives `{"1.20","1.21"}`, the sequence
`["1.19","1.20"]` gives `{"1.19","1.20"}` (stated as set membership,
since the sequence branch fixes no order), and null, the empty string
and every non-string non-list input give the empty result. -/
theorem parse_point_values :
    parse_mc_versions (.str "1.20.x") = ["1.20"] ∧
    parse_mc_versions (.str ">=1.20 <1.21") = ["1.20", "1.21"] ∧
    (∀ x : String,
      x ∈ parse_mc_versions (.list [.str "1.19", .str "1.20"]) ↔
        (x = "1.19" ∨ x = "1.20")) ∧
    parse_mc_versions .null = [] ∧
    parse_mc_versions (.str "") = [] ∧
    (∀ v : JValue, (∀ s, v ≠ .str s) → (∀ l, v ≠ .list l) →
      parse_mc_versions v = []) := by
  refine ⟨by decide, by decide, ?_, rfl, by decide, ?_⟩
  · intro x
    rw [show parse_mc_versions (.list [.str "1.19", .str "1.20"]) =
        ["1.19", "1.20"] by decide]
    simp
  · intro v hs hl
    cases v with
    | str s => exact absurd rfl (hs s)
    | list items => exact absurd rfl (hl items)
    | null => rfl
    | bool b => rfl
    | int n => rfl
    | obj o => rfl

/-- Witness for C5: the membership equivalence at `"1.19"` and the
empty result at the non-string non-list input `7`. -/
theorem parse_point_values_witness :
    ("1.19" ∈ parse_mc_versions (.list [.str "1.19", .str "1.20"])) ∧
    parse_mc_versions (.int 7) = [] :=
  ⟨(parse_point_values.2.2.1 "1.19").mpr (Or.inl rfl),
   parse_point_values.2.2.2.2.2 (.int 7)
     (fun _ h => JValue.noConfusion h) (fun _ h => JValue.noConfusion h)⟩

/-- A nonempty run of decimal digits (one `major`/`minor`/`patch`
component). -/
def DigitRun (a : List Char) : Prop :=
  a ≠ [] ∧ ∀ c ∈ a, c.isDigit = true

/-- The claim's version format: `major.minor` or `major.minor.patch`,
i.e. two or three dot-separated nonempty runs of decimal digits. -/
def VersionShape (v : List Char) : Prop :=
  (∃ a b, v = a ++ '.' :: b ∧ DigitRun a ∧ DigitRun b) ∨
  (∃ a b c3, v = a ++ '.' :: b ++ '.' :: c3 ∧
    DigitRun a ∧ DigitRun b ∧ DigitRun c3)

theorem digitRun_takeWhile {l : List Char}
    (h : ¬ (l.takeWhile Char.isDigit).isEmpty = true) :
    DigitRun (l.takeWhile Char.isDigit) :=
  ⟨by simpa [List.isEmpty_iff] using h, fun _ hc => List.mem_takeWhile_imp hc⟩

theorem sub_of_pre_of_suf {v l2 l : List Char} (h1 : v <+: l2)
    (h2 : l2 <:+ l) : v <:+: l := by
  obtain ⟨t, ht⟩ := h1
  obtain ⟨s, hs⟩ := h2
  exact ⟨s, t, by rw [← hs, ← ht, List.append_assoc]⟩

theorem parseVer_spec {l v r : List Char} (h : parseVer l = some (v, r)) :
    v ++ r = l ∧ VersionShape v := by
  simp only [parseVer] at h
  by_cases h1 : (l.takeWhile Char.isDigit).isEmpty
  · rw [if_pos h1] at h
    exact Option.noConfusion h
  · rw [if_neg h1] at h
    split at h
    · rename_i r2 heqA
      by_cases h2 : (r2.takeWhile Char.isDigit).isEmpty
      · rw [if_pos h2] at h
        exact Option.noConfusion h
      · rw [if_neg h2] at h
        have hassemble2 :
            (l.takeWhile Char.isDigit ++
              '.' :: r2.takeWhile Char.isDigit) ++
              r2.dropWhile Char.isDigit = l := by
          rw [List.append_assoc]
          show l.takeWhile Char.isDigit ++
            ('.' :: (r2.takeWhile Char.isDigit ++
              r2.dropWhile Char.isDigit)) = l
          rw [List.takeWhile_append_dropWhile, ← heqA,
            List.takeWhile_append_dropWhile]
        split at h
        · rename_i r4 heqB
          by_cases h3 : (r4.takeWhile Char.isDigit).isEmpty
          · rw [if_pos h3] at h
            rw [Option.some.injEq, Prod.mk.injEq] at h
            obtain ⟨hv, hr⟩ := h
            subst hv
            subst hr
            refine ⟨?_, Or.inl ⟨_, _, rfl, digitRun_takeWhile h1,
              digitRun_takeWhile h2⟩⟩
            exact hassemble2
          · rw [if_neg h3] at h
            rw [Option.some.injEq, Prod.mk.injEq] at h
            obtain ⟨hv, hr⟩ := h
            subst hv
            subst hr
            constructor
            · rw [List.append_assoc, List.append_assoc]
              show l.takeWhile Char.isDigit ++
                ('.' :: (r2.takeWhile Char.isDigit ++
                  ('.' :: (r4.takeWhile Char.isDigit ++
                    r4.dropWhile Char.isDigit)))) = l
              rw [List.takeWhile_append_dropWhile, ← heqB,
                List.takeWhile_append_dropWhile, ← heqA,
                List.takeWhile_append_dropWhile]
            · refine Or.inr ⟨_, _, _, ?_, digitRun_takeWhile h1,
                digitRun_takeWhile h2, digitRun_takeWhile h3⟩
              rw [List.append_assoc]
        · rw [Option.some.injEq, Prod.mk.injEq] at h
          obtain ⟨hv, hr⟩ := h
          subst hv
          subst hr
          exact ⟨hassemble2, Or.inl ⟨_, _, rfl, digitRun_takeWhile h1,
            digitRun_takeWhile h2⟩⟩
    · exact Option.noConfusion h

theorem parseVer2_spec {l v r : List Char} (h : parseVer2 l = some (v, r)) :
    v ++ r = l ∧ VersionShape v := by
  simp only [parseVer2] at h
  by_cases h1 : (l.takeWhile Char.isDigit).isEmpty
  · rw [if_pos h1] at h
    exact Option.noConfusion h
  · rw [if_neg h1] at h
    split at h
    · rename_i r2 heqA
      by_cases h2 : (r2.takeWhile Char.isDigit).isEmpty
      · rw [if_pos h2] at h
        exact Option.noConfusion h
      · rw [if_neg h2] at h
        rw [Option.some.injEq, Prod.mk.injEq] at h
        obtain ⟨hv, hr⟩ := h
        subst hv
        subst hr
        refine ⟨?_, Or.inl ⟨_, _, rfl, digitRun_takeWhile h1,
          digitRun_takeWhile h2⟩⟩
        rw [List.append_assoc]
        show l.takeWhile Char.isDigit ++
          ('.' :: (r2.takeWhile Char.isDigit ++
            r2.dropWhile Char.isDigit)) = l
        rw [List.takeWhile_append_dropWhile, ← heqA,
          List.takeWhile_append_dropWhile]
    · exact Option.noConfusion h

theorem parseVer_pre {l v r : List Char} (h : parseVer l = some (v, r)) :
    v <+: l := ⟨r, (parseVer_spec h).1⟩

theorem parseVer_rest_suf {l v r : List Char} (h : parseVer l = some (v, r)) :
    r <:+ l := ⟨v, (parseVer_spec h).1⟩

theorem parseVer2_pre {l v r : List Char} (h : parseVer2 l = some (v, r)) :
    v <+: l := ⟨r, (parseVer2_spec h).1⟩

theorem parseVer2_rest_suf {l v r : List Char}
    (h : parseVer2 l = some (v, r)) : r <:+ l := ⟨v, (parseVer2_spec h).1⟩

theorem scanP1_mem {l v : List Char} (h : v ∈ scanP1 l) :
    VersionShape v ∧ v <:+: l := by
  unfold scanP1 at h
  split at h
  · rename_i v0 heq
    rcases List.mem_singleton.mp h with rfl
    have hs := parseVer_spec heq
    refine ⟨hs.2, ?_⟩
    exact sub_of_pre_of_suf ⟨[], by simpa using hs.1⟩ (List.suffix_rfl)
  · simp at h

theorem scanP2_mem : ∀ (fuel : Nat) (l v : List Char),
    v ∈ scanP2 fuel l → VersionShape v ∧ v <:+: l := by
  intro fuel
  induction fuel with
  | zero =>
    intro l v h
    simp [scanP2] at h
  | succ fuel ih =>
    intro l v h
    cases l with
    | nil => simp [scanP2] at h
    | cons c cs =>
      simp only [scanP2] at h
      have hsuf : (List.dropWhile isCmpChar (c :: cs)).dropWhile
          Char.isWhitespace <:+ c :: cs :=
        (List.dropWhile_suffix _).trans (List.dropWhile_suffix _)
      rcases hp : parseVer ((List.dropWhile isCmpChar (c :: cs)).dropWhile
          Char.isWhitespace) with _ | ⟨v0, rest⟩
      · rw [hp] at h
        have h2 := ih cs v h
        exact ⟨h2.1, List.infix_cons h2.2⟩
      · rw [hp] at h
        rcases List.mem_cons.mp h with rfl | h2
        · exact ⟨(parseVer_spec hp).2,
            sub_of_pre_of_suf (parseVer_pre hp) hsuf⟩
        · have h3 := ih rest v h2
          exact ⟨h3.1, h3.2.trans
            ( List.IsSuffix.isInfix ((parseVer_rest_suf hp).trans hsuf))⟩

theorem scanP3_mem : ∀ (fuel : Nat) (l v : List Char),
    v ∈ scanP3 fuel l → VersionShape v ∧ v <:+: l := by
  intro fuel
  induction fuel with
  | zero =>
    intro l v h
    simp [scanP3] at h
  | succ fuel ih =>
    intro l v h
    cases l with
    | nil => simp [scanP3] at h
    | cons c cs =>
      simp only [scanP3] at h
      split at h
      · rcases hp : parseVer cs with _ | ⟨v0, rest⟩
        · rw [hp] at h
          have h2 := ih cs v h
          exact ⟨h2.1, List.infix_cons h2.2⟩
        · rw [hp] at h
          dsimp only at h
          split at h
          · rename_i r3 heqd
            rcases List.mem_cons.mp h with rfl | h2
            · exact ⟨(parseVer_spec hp).2, List.infix_cons
                (sub_of_pre_of_suf (parseVer_pre hp) List.suffix_rfl)⟩
            · have h3 := ih r3 v h2
              have hr3 : r3 <:+ cs := by
                refine List.IsSuffix.trans ?_
                  ((List.dropWhile_suffix Char.isWhitespace).trans
                    (parseVer_rest_suf hp))
                rw [heqd]
                exact ⟨[','], rfl⟩
              exact ⟨h3.1, List.infix_cons (h3.2.trans ( List.IsSuffix.isInfix hr3))⟩
          · have h2 := ih cs v h
            exact ⟨h2.1, List.infix_cons h2.2⟩
      · have h2 := ih cs v h
        exact ⟨h2.1, List.infix_cons h2.2⟩

theorem scanP4_mem : ∀ (fuel : Nat) (l v : List Char),
    v ∈ scanP4 fuel l → VersionShape v ∧ v <:+: l := by
  intro fuel
  induction fuel with
  | zero =>
    intro l v h
    simp [scanP4] at h
  | succ fuel ih =>
    intro l v h
    cases l with
    | nil => simp [scanP4] at h
    | cons c cs =>
      simp only [scanP4] at h
      split at h
      · have hsufd : cs.dropWhile Char.isWhitespace <:+ cs :=
          List.dropWhile_suffix _
        rcases hp : parseVer (cs.dropWhile Char.isWhitespace) with
          _ | ⟨v0, rest⟩
        · rw [hp] at h
          have h2 := ih cs v h
          exact ⟨h2.1, List.infix_cons h2.2⟩
        · rw [hp] at h
          rcases rest with _ | ⟨b, r3⟩
          · dsimp only at h
            have h2 := ih cs v h
            exact ⟨h2.1, List.infix_cons h2.2⟩
          · dsimp only at h
            split at h
            · rcases List.mem_cons.mp h with rfl | h2
              · exact ⟨(parseVer_spec hp).2, List.infix_cons
                  (sub_of_pre_of_suf (parseVer_pre hp) hsufd)⟩
              · have h3 := ih r3 v h2
                have hr3 : r3 <:+ cs := by
                  refine List.IsSuffix.trans ?_
                    ((parseVer_rest_suf hp).trans hsufd)
                  exact ⟨[b], rfl⟩
                exact ⟨h3.1, List.infix_cons (h3.2.trans ( List.IsSuffix.isInfix hr3))⟩
            · have h2 := ih cs v h
              exact ⟨h2.1, List.infix_cons h2.2⟩
      · have h2 := ih cs v h
        exact ⟨h2.1, List.infix_cons h2.2⟩

theorem scanP5_rest2_suf (rest : List Char) :
    (match rest with
      | '.' :: 'x' :: r => r
      | '.' :: '*' :: r => r
      | _ => rest) <:+ rest := by
  split
  · exact ⟨['.', 'x'], rfl⟩
  · exact ⟨['.', '*'], rfl⟩
  · exact List.suffix_rfl

theorem scanP5_mem : ∀ (fuel : Nat) (l v : List Char),
    v ∈ scanP5 fuel l → VersionShape v ∧ v <:+: l := by
  intro fuel
  induction fuel with
  | zero =>
    intro l v h
    simp [scanP5] at h
  | succ fuel ih =>
    intro l v h
    cases l with
    | nil => simp [scanP5] at h
    | cons c cs =>
      simp only [scanP5] at h
      rcases hp : parseVer2 (c :: cs) with _ | ⟨v0, rest⟩
      · rw [hp] at h
        have h2 := ih cs v h
        exact ⟨h2.1, List.infix_cons h2.2⟩
      · rw [hp] at h
        rcases List.mem_cons.mp h with rfl | h2
        · exact ⟨(parseVer2_spec hp).2,
            sub_of_pre_of_suf (parseVer2_pre hp) List.suffix_rfl⟩
        · have h3 := ih _ v h2
          exact ⟨h3.1, h3.2.trans
            (((scanP5_rest2_suf rest).trans
              (parseVer2_rest_suf hp)) |> List.IsSuffix.isInfix)⟩

theorem harvest_mem {l v : List Char} (h : v ∈ harvest l) :
    VersionShape v ∧ v <:+: l := by
  unfold harvest at h
  have h2 := (List.mem_filter.mp h).1
  rcases List.mem_append.mp h2 with h3 | h3
  rotate_left
  · exact scanP5_mem _ _ _ h3
  rcases List.mem_append.mp h3 with h4 | h4
  rotate_left
  · exact scanP4_mem _ _ _ h4
  rcases List.mem_append.mp h4 with h5 | h5
  rotate_left
  · exact scanP3_mem _ _ _ h5
  rcases List.mem_append.mp h5 with h6 | h6
  · exact scanP1_mem h6
  · exact scanP2_mem _ _ _ h6

theorem pyStripL_sub (l : List Char) : pyStripL l <:+: l := by
  unfold pyStripL
  obtain ⟨s, hs⟩ := List.dropWhile_suffix (l := l) Char.isWhitespace
  obtain ⟨t, ht⟩ := List.dropWhile_suffix
    (l := (l.dropWhile Char.isWhitespace).reverse) Char.isWhitespace
  refine sub_of_pre_of_suf ?_ ⟨s, hs⟩
  have h2 := congrArg List.reverse ht
  rw [List.reverse_append, List.reverse_reverse] at h2
  exact ⟨t.reverse, h2⟩

/-- C4: every element the parser returns for a string constraint is a
`major.minor` or `major.minor.patch` numeral (two or three dot-separated
nonempty digit runs) occurring as a contiguous substring of the input. -/
theorem parse_output_shape_substring (s v : String)
    (h : v ∈ parse_mc_versions (.str s)) :
    VersionShape v.data ∧ v.data <:+: s.data := by
  unfold parse_mc_versions at h
  by_cases hs : s = ""
  · simp [hs] at h
  · simp only [hs, if_false] at h
    have h2 : v ∈ pySetList ((harvest (pyStripL s.data)).map String.mk) :=
      ((sortStrings_perm _).mem_iff).mp h
    obtain ⟨cl, hcl, hveq⟩ := List.mem_map.mp (pySetList_mem h2)
    have h4 := harvest_mem hcl
    have hdata : v.data = cl := by rw [← hveq]
    rw [hdata]
    exact ⟨h4.1, h4.2.trans (pyStripL_sub s.data)⟩

/-- Witness for C4: `"1.20"` as returned for `"1.20.x"`. -/
theorem parse_output_shape_substring_witness :
    ("1.20" ∈ parse_mc_versions (.str "1.20.x")) ∧
    (VersionShape ("1.20" : String).data ∧
      ("1.20" : String).data <:+: ("1.20.x" : String).data) :=
  ⟨by decide, parse_output_shape_substring "1.20.x" "1.20" (by decide)⟩

/-!  The fuel in the pattern scanners is immaterial: every step consumes
at least one character, so any fuel of at least the input length yields
the same captures -- `l.length` therefore realises the unbounded
`finditer` loop.  The lemmas below make that exact. -/

theorem dropWhileLengthLe (p : Char → Bool) (l : List Char) :
    (l.dropWhile p).length ≤ l.length :=
  (List.dropWhile_suffix p).length_le

theorem versionShape_length {v : List Char} (h : VersionShape v) :
    3 ≤ v.length := by
  rcases h with ⟨a, b, rfl, ⟨ha, _⟩, ⟨hb, _⟩⟩ |
    ⟨a, b, c3, rfl, ⟨ha, _⟩, ⟨hb, _⟩, ⟨hc, _⟩⟩
  · have h1 : 1 ≤ a.length := List.length_pos.mpr ha
    have h2 : 1 ≤ b.length := List.length_pos.mpr hb
    simp only [List.length_append, List.length_cons]
    omega
  · have h1 : 1 ≤ a.length := List.length_pos.mpr ha
    have h2 : 1 ≤ b.length := List.length_pos.mpr hb
    simp only [List.length_append, List.length_cons]
    omega

theorem parseVer_rest_length {l v r : List Char}
    (h : parseVer l = some (v, r)) : r.length + 3 ≤ l.length := by
  obtain ⟨he, hs⟩ := parseVer_spec h
  have h3 := versionShape_length hs
  have h4 := congrArg List.length he
  simp only [List.length_append] at h4
  omega

theorem parseVer2_rest_length {l v r : List Char}
    (h : parseVer2 l = some (v, r)) : r.length + 3 ≤ l.length := by
  obtain ⟨he, hs⟩ := parseVer2_spec h
  have h3 := versionShape_length hs
  have h4 := congrArg List.length he
  simp only [List.length_append] at h4
  omega

theorem scanP2_fuel : ∀ (f1 f2 : Nat) (l : List Char),
    l.length ≤ f1 → l.length ≤ f2 → scanP2 f1 l = scanP2 f2 l := by
  intro f1
  induction f1 with
  | zero =>
    intro f2 l h1 h2
    have hl : l = [] := List.length_eq_zero.mp (Nat.le_zero.mp h1)
    subst hl
    cases f2 <;> rfl
  | succ f1 ih =>
    intro f2 l h1 h2
    cases l with
    | nil => cases f2 <;> rfl
    | cons c cs =>
      cases f2 with
      | zero => simp at h2
      | succ f2 =>
        have hcs1 : cs.length ≤ f1 := by
          simp only [List.length_cons] at h1
          omega
        have hcs2 : cs.length ≤ f2 := by
          simp only [List.length_cons] at h2
          omega
        simp only [scanP2]
        rcases hp : parseVer ((List.dropWhile isCmpChar (c :: cs)).dropWhile
            Char.isWhitespace) with _ | ⟨v0, rest⟩
        · exact ih f2 cs hcs1 hcs2
        · have hlen := parseVer_rest_length hp
          have hl2 : ((List.dropWhile isCmpChar (c :: cs)).dropWhile
              Char.isWhitespace).length ≤ cs.length + 1 := by
            calc ((List.dropWhile isCmpChar (c :: cs)).dropWhile
                Char.isWhitespace).length
                ≤ (List.dropWhile isCmpChar (c :: cs)).length :=
                  dropWhileLengthLe _ _
              _ ≤ (c :: cs).length := dropWhileLengthLe _ _
              _ = cs.length + 1 := by simp
          exact congrArg (v0 :: ·) (ih f2 rest (by omega) (by omega))

theorem scanP3_fuel : ∀ (f1 f2 : Nat) (l : List Char),
    l.length ≤ f1 → l.length ≤ f2 → scanP3 f1 l = scanP3 f2 l := by
  intro f1
  induction f1 with
  | zero =>
    intro f2 l h1 h2
    have hl : l = [] := List.length_eq_zero.mp (Nat.le_zero.mp h1)
    subst hl
    cases f2 <;> rfl
  | succ f1 ih =>
    intro f2 l h1 h2
    cases l with
    | nil => cases f2 <;> rfl
    | cons c cs =>
      cases f2 with
      | zero => simp at h2
      | succ f2 =>
        have hcs1 : cs.length ≤ f1 := by
          simp only [List.length_cons] at h1
          omega
        have hcs2 : cs.length ≤ f2 := by
          simp only [List.length_cons] at h2
          omega
        simp only [scanP3]
        split
        · rcases hp : parseVer cs with _ | ⟨v0, rest⟩
          · exact ih f2 cs hcs1 hcs2
          · have hlen := parseVer_rest_length hp
            dsimp only
            rcases hd : rest.dropWhile Char.isWhitespace with _ | ⟨b, r3⟩
            · exact ih f2 cs hcs1 hcs2
            · have hdl : r3.length + 1 ≤ rest.length := by
                have h5 := congrArg List.length hd
                have h6 := dropWhileLengthLe Char.isWhitespace rest
                simp only [List.length_cons] at h5
                omega
              split
              · rename_i r3x heqx
                injection heqx with hb hr
                subst hr
                exact congrArg (v0 :: ·) (ih f2 r3 (by omega) (by omega))
              · exact ih f2 cs hcs1 hcs2
        · exact ih f2 cs hcs1 hcs2

theorem scanP4_fuel : ∀ (f1 f2 : Nat) (l : List Char),
    l.length ≤ f1 → l.length ≤ f2 → scanP4 f1 l = scanP4 f2 l := by
  intro f1
  induction f1 with
  | zero =>
    intro f2 l h1 h2
    have hl : l = [] := List.length_eq_zero.mp (Nat.le_zero.mp h1)
    subst hl
    cases f2 <;> rfl
  | succ f1 ih =>
    intro f2 l h1 h2
    cases l with
    | nil => cases f2 <;> rfl
    | cons c cs =>
      cases f2 with
      | zero => simp at h2
      | succ f2 =>
        have hcs1 : cs.length ≤ f1 := by
          simp only [List.length_cons] at h1
          omega
        have hcs2 : cs.length ≤ f2 := by
          simp only [List.length_cons] at h2
          omega
        simp only [scanP4]
        split
        · rcases hp : parseVer (cs.dropWhile Char.isWhitespace) with
            _ | ⟨v0, rest⟩
          · exact ih f2 cs hcs1 hcs2
          · have hlen := parseVer_rest_length hp
            have hdw := dropWhileLengthLe Char.isWhitespace cs
            rcases rest with _ | ⟨b, r3⟩
            · exact ih f2 cs hcs1 hcs2
            · simp only [List.length_cons] at hlen
              dsimp only
              split
              · exact congrArg (v0 :: ·) (ih f2 r3 (by omega) (by omega))
              · exact ih f2 cs hcs1 hcs2
        · exact ih f2 cs hcs1 hcs2

theorem scanP5_fuel : ∀ (f1 f2 : Nat) (l : List Char),
    l.length ≤ f1 → l.length ≤ f2 → scanP5 f1 l = scanP5 f2 l := by
  intro f1
  induction f1 with
  | zero =>
    intro f2 l h1 h2
    have hl : l = [] := List.length_eq_zero.mp (Nat.le_zero.mp h1)
    subst hl
    cases f2 <;> rfl
  | succ f1 ih =>
    intro f2 l h1 h2
    cases l with
    | nil => cases f2 <;> rfl
    | cons c cs =>
      cases f2 with
      | zero => simp at h2
      | succ f2 =>
        have hcs1 : cs.length ≤ f1 := by
          simp only [List.length_cons] at h1
          omega
        have hcs2 : cs.length ≤ f2 := by
          simp only [List.length_cons] at h2
          omega
        simp only [scanP5]
        rcases hp : parseVer2 (c :: cs) with _ | ⟨v0, rest⟩
        · exact ih f2 cs hcs1 hcs2
        · have hlen := parseVer2_rest_length hp
          simp only [List.length_cons] at hlen
          have hr2 := (scanP5_rest2_suf rest).length_le
          exact congrArg (v0 :: ·) (ih f2 _ (by omega) (by omega))

/-- Any fuel of at least the input length scans exactly as `harvest`
does with fuel `l.length`: the bound in the embedding is not binding. -/
theorem harvest_fuel_stable (l : List Char) (k : Nat) :
    (scanP1 l ++ scanP2 (l.length + k) l ++ scanP3 (l.length + k) l ++
     scanP4 (l.length + k) l ++ scanP5 (l.length + k) l).filter
      (fun v => 2 ≤ (strSplitChar '.' (String.mk v)).length) = harvest l := by
  unfold harvest
  rw [scanP2_fuel (l.length + k) l.length l (by omega) le_rfl,
      scanP3_fuel (l.length + k) l.length l (by omega) le_rfl,
      scanP4_fuel (l.length + k) l.length l (by omega) le_rfl,
      scanP5_fuel (l.length + k) l.length l (by omega) le_rfl]
